import Mathlib

/-!
Verification of the functional core of `nwa-stdlib`.

The development shallowly embeds the repository's `dict.py` and `do.py`:

* Python dicts are embedded as association lists (`List (K × V)`) whose
  construction mirrors CPython semantics exactly: building a dict from a
  sequence of key/value pairs inserts the pairs one by one, where inserting
  an existing key replaces its value in place (keeping the key's original
  position) and inserting a fresh key appends it at the end
  (`dictInsert` / `dictOfPairs`).  Dict displays `{**d1, **d2}` are
  `dictOfPairs (d1 ++ d2)`, comprehensions are `dictOfPairs` of the
  filtered/mapped item sequence, and `d.get`/`d[k]`/`k in d` are
  association-list lookup (`aget`).
* Python values that may be nested dicts (the inputs of `append` and
  `unflatten`) are embedded as the inductive `Val`: an opaque atom or a dict
  of entries.  Python `None` (for `lookup`) is embedded as `Option.none` in
  the value slot.
* Python strings, for `unflatten`'s `str.split`, are embedded as `List Char`
  with `pySplit` implementing `str.split` for a non-empty separator.
* `maybe.py` and `either.py` are not part of the sources; the `Maybe` and
  `Either` containers and their operations (`of`, `maybe`, `map`, `flatmap`,
  `sequence`, the `unit` success constructors) are modelled from the spec,
  see the doc comments below.
* The generator-driven do-block interpreter of `do.py` is embedded as a
  total interpreter `runDo` over `DoProg`, the tree of behaviours of a
  generator: at each resume point the generator either yields a container
  value together with its continuation, finishes (raising `StopIteration`
  whose payload is returned verbatim), or raises the internal early-return
  signal `ReturnMonadic` (the `mretStep` constructor, which `runDo` converts
  to the container's success constructor and never lets escape).
-/

namespace nwastdlib

/-! ## Containers (modelled from the spec; `maybe.py`/`either.py` are not in the sources) -/

/-- Modelled from the spec: the Optional container, variants
`Present(value)` (`Maybe.Some` in the code's naming) and `Absent`
(`Maybe.Nothing`). -/
inductive Maybe (α : Type) where
  | Some : α → Maybe α
  | Nothing : Maybe α
deriving DecidableEq, Repr

/-- Modelled from the spec: `of(value)` returns `Present(value)` unless
`value` is the designated absent sentinel (Python `None`, embedded as
`Option.none`), in which case it returns `Absent`. -/
def Maybe.of : Option α → Maybe α
  | Option.none => Maybe.Nothing
  | Option.some a => Maybe.Some a

/-- Modelled from the spec: `mapOr(default, f)` (called `maybe` in the code),
the eliminator of the Optional container to a plain value. -/
def Maybe.maybe (default : β) (f : α → β) : Maybe α → β
  | Maybe.Nothing => default
  | Maybe.Some a => f a

/-- Modelled from the spec: `flatMap(f)` of the Optional container:
`Present(v) -> f(v)`; `Absent -> Absent`. -/
def Maybe.flatmap : Maybe α → (α → Maybe β) → Maybe β
  | Maybe.Nothing, _ => Maybe.Nothing
  | Maybe.Some a, f => f a

/-- Test for the `Absent` variant of the Optional container. -/
def Maybe.isNothing : Maybe α → Bool
  | Maybe.Nothing => true
  | Maybe.Some _ => false

/-- Modelled from the spec: the disjoint two-branch container, variants
`Left(value)` (failure/short-circuit) and `Right(value)` (success). -/
inductive Either (L R : Type) where
  | Left : L → Either L R
  | Right : R → Either L R
deriving DecidableEq, Repr

/-- Modelled from the spec: `map(f)` applies `f` to the `Right` payload only;
a `Left` passes through unchanged. -/
def Either.map (f : R → S) : Either L R → Either L S
  | Either.Left l => Either.Left l
  | Either.Right r => Either.Right (f r)

/-- Modelled from the spec: `flatMap(f)` is invoked only on `Right`; on
`Left` it returns the same `Left` unchanged. -/
def Either.flatmap : Either L R → (R → Either L S) → Either L S
  | Either.Left l, _ => Either.Left l
  | Either.Right r, f => f r

/-- Modelled from the spec: `sequence` processes the items in order; on the
first `Left` encountered it returns that `Left` immediately, and if all
items are `Right` it returns `Right` of the ordered collection of unwrapped
payloads, preserving input order. -/
def Either.sequence : List (Either L R) → Either L (List R)
  | [] => Either.Right []
  | Either.Left l :: _ => Either.Left l
  | Either.Right r :: t => (Either.sequence t).map (fun rs => r :: rs)

/-! ## Python dict primitives

Embedding of CPython dict construction on association lists. -/

variable {K A B : Type} [DecidableEq K]

/-- Lookup of a key in an association list (first match).  Embeds
`d[k]` / `d.get(k)` / `k in d` on a Python dict, whose keys are unique. -/
def aget (k : K) : List (K × A) → Option A
  | [] => none
  | (k', v) :: t => if k' = k then some v else aget k t

/-- Embeds a single CPython dict assignment `d[k] = v`: if the key is
present its value is replaced in place (the entry keeps its position),
otherwise the new entry is appended at the end. -/
def dictInsert (k : K) (v : A) : List (K × A) → List (K × A)
  | [] => [(k, v)]
  | (k', v') :: t => if k' = k then (k, v) :: t else (k', v') :: dictInsert k v t

/-- Embeds building a CPython dict from a sequence of key/value pairs
(dict displays `{**d1, **d2}`, dict comprehensions, `dict(pairs)`): the
pairs are inserted one by one into an empty dict. -/
def dictOfPairs (l : List (K × A)) : List (K × A) :=
  l.foldl (fun acc p => dictInsert p.1 p.2 acc) []

/-- Keys of an embedded dict, in iteration order. -/
def keys (d : List (K × A)) : List K := d.map Prod.fst

/-- Embeds `d.get(k, default)` on a Python dict. -/
def pyGet (k : K) (d : List (K × A)) (default : A) : A :=
  match aget k d with
  | some v => v
  | none => default

/-! ## `dict.py` -/

/-- Embeds `filterWithKey(p, d)` of `dict.py`:
`{k: v for k, v in d.items() if p(k, v)}`. -/
def filterWithKey (p : K → A → Bool) (d : List (K × A)) : List (K × A) :=
  dictOfPairs (d.filter (fun kv => p kv.1 kv.2))

/-- Embeds `filterByKey(ks, d)` of `dict.py`:
`filterWithKey(lambda k, v: k in ks, d)`.  The key space `ks` is embedded
as the list of its elements. -/
def filterByKey (ks : List K) (d : List (K × A)) : List (K × A) :=
  filterWithKey (fun k _ => decide (k ∈ ks)) d

/-- Embeds `lookup(k, d)` of `dict.py`: `Maybe.of(d.get(k, None))`.  The
value slot is `Option A` so that a stored Python `None` (= `Option.none`)
is representable. -/
def lookup (k : K) (d : List (K × Option A)) : Maybe A :=
  Maybe.of (pyGet k d none)

/-- Embeds the inner `get(k)` of `getByKeys` in `dict.py`:
`lookup(k, d).maybe(Either.Left(k), lambda v: Either.Right((k, v)))`. -/
def getByKeysItem (d : List (K × Option A)) (k : K) : Either K (K × A) :=
  (lookup k d).maybe (Either.Left k) (fun v => Either.Right (k, v))

/-- Embeds `getByKeys(ks, d)` of `dict.py`:
`Either.sequence([get(k) for k in ks]).map(dict)`.  The key set `ks` is
embedded as the list of its elements in the set's iteration order. -/
def getByKeys (ks : List K) (d : List (K × Option A)) : Either K (List (K × A)) :=
  (Either.sequence (ks.map (getByKeysItem d))).map dictOfPairs

/-- Embeds `delete(key, d)` of `dict.py`:
`{k: v for k, v in d.items() if k != key}`. -/
def delete (key : K) (d : List (K × A)) : List (K × A) :=
  dictOfPairs (d.filter (fun kv => decide (kv.1 ≠ key)))

/-- Embeds `insert(key, value, d)` of `dict.py`: `{**d, key: value}`. -/
def insert (key : K) (value : A) (d : List (K × A)) : List (K × A) :=
  dictOfPairs (d ++ [(key, value)])

/-- Python values handled by `append`/`unflatten` in `dict.py`: either an
opaque non-dict value (`atom`) or a nested dict of entries (`vdict`). -/
inductive Val (K A : Type) where
  | atom : A → Val K A
  | vdict : List (K × Val K A) → Val K A

/-- Embeds Python's `isinstance(v, dict)`. -/
def isDict : Val K A → Bool
  | Val.vdict _ => true
  | Val.atom _ => false

mutual
/-- Merge of two dict values, as performed by the recursive call
`append(v, cast(dict, d2[k]))` inside `append` of `dict.py`; only ever
applied when both arguments are dicts. -/
def appendV : Val K A → Val K A → Val K A
  | Val.vdict l1, Val.vdict l2 =>
      Val.vdict (dictOfPairs (l1 ++ l2 ++ dictOfPairs (appendPairs l1 l2)))
  | v, _ => v
/-- Embeds the `d3` comprehension of `append` in `dict.py`: the item
sequence `(k, append(v, d2[k]))` for `(k, v)` in `d1.items()` such that
`k in d2 and isinstance(v, dict) and isinstance(d2[k], dict)`. -/
def appendPairs : List (K × Val K A) → List (K × Val K A) → List (K × Val K A)
  | [], _ => []
  | (k, v) :: t, d2 =>
    match aget k d2 with
    | some w =>
        if isDict v && isDict w then (k, appendV v w) :: appendPairs t d2
        else appendPairs t d2
    | none => appendPairs t d2
end

/-- Embeds `append(d1, d2)` of `dict.py` (the spec's `deepMerge`):
`d3 = {k: append(v, d2[k]) for (k, v) in d1.items() if ...}` followed by
`{**d1, **d2, **d3}`. -/
def append (d1 d2 : List (K × Val K A)) : List (K × Val K A) :=
  dictOfPairs (d1 ++ d2 ++ dictOfPairs (appendPairs d1 d2))

/-- Python strings, for `unflatten`, are embedded as their list of
characters. -/
abbrev PyStr := List Char

/-- Worker of `pySplit`; the fuel is an upper bound on the number of steps,
each of which consumes at least one character of a non-empty input. -/
def pySplitGo (sep : PyStr) : Nat → PyStr → PyStr → List PyStr
  | 0, s, cur => [cur.reverse ++ s]
  | fuel + 1, s, cur =>
    match s with
    | [] => [cur.reverse]
    | c :: rest =>
      if sep.isPrefixOf s then cur.reverse :: pySplitGo sep fuel (s.drop sep.length) []
      else pySplitGo sep fuel rest (c :: cur)

/-- Embeds Python's `s.split(sep)` for a non-empty separator: the list of
maximal chunks between consecutive occurrences of `sep`, scanned left to
right (`"a.b" -> ["a", "b"]`, `"x" -> ["x"]`, `"" -> [""]`,
`"a..b" -> ["a", "", "b"]`). -/
def pySplit (sep s : PyStr) : List PyStr := pySplitGo sep s.length s []

/-- Embeds the inner `unflatten1(parts, value)` of `unflatten` in
`dict.py`: `h, *t = parts; return {h: value} if len(t) == 0 else
{h: unflatten1(t, value)}`.  The `[]` case cannot arise from `str.split`. -/
def unflatten1 : List PyStr → Val PyStr A → List (PyStr × Val PyStr A)
  | [], _ => []
  | [h], value => [(h, value)]
  | h :: t, value => [(h, Val.vdict (unflatten1 t value))]

/-- Embeds `unflatten(d, sep)` of `dict.py`:
`reduce(append, (unflatten1(k.split(sep), v) for (k, v) in d.items()), {})`. -/
def unflatten (d : List (PyStr × Val PyStr A)) (sep : PyStr) :
    List (PyStr × Val PyStr A) :=
  d.foldl (fun acc p => append acc (unflatten1 (pySplit sep p.1) p.2)) []

/-- Modelled from the spec: "build a singleton nested mapping mirroring that
path with the leaf value at the end" — the spec-side description of the
singleton mapping built for one entry of `unflattenKeys`. -/
def singletonPath : List PyStr → Val PyStr A → List (PyStr × Val PyStr A)
  | [], _ => []
  | [h], value => [(h, value)]
  | h :: t, value => [(h, Val.vdict (singletonPath t value))]

/-! ## `do.py` -/

/-- Capability required of the container class `M` by `do(M)` in `do.py`:
a success constructor `M.unit` and a bind `flatmap`. -/
structure MonadOps (M : Type → Type) where
  unit : {α : Type} → α → M α
  flatmap : {α β : Type} → M α → (α → M β) → M β

/-- Modelled from the spec: the Optional container's do-block capability —
`unit` is the success constructor `Present`/`Some`, `flatmap` is 4.1's
`flatMap`. -/
def maybeOps : MonadOps Maybe :=
  ⟨fun a => Maybe.Some a, fun m f => m.flatmap f⟩

/-- Modelled from the spec: the disjoint-branch container's do-block
capability — `unit` is the success constructor `Right`, `flatmap` is 4.2's
`flatMap`. -/
def eitherOps (L : Type) : MonadOps (Either L) :=
  ⟨fun a => Either.Right a, fun m f => m.flatmap f⟩

/-- Behaviour tree of one run of a generator passed to `do(M)` in `do.py`.
At each resume point (`it.send(val)`) the generator either yields a
container value and waits to be resumed (`yieldStep`, with the
continuation receiving the value `send` passes back in), finishes —
raising `StopIteration` whose payload `e.value` the interpreter returns
verbatim (`stopStep`) — or calls `mreturn`, raising the internal
`ReturnMonadic` signal (`mretStep`). -/
inductive DoProg (M : Type → Type) (α : Type) where
  | yieldStep : M α → (α → DoProg M α) → DoProg M α
  | stopStep : M α → DoProg M α
  | mretStep : α → DoProg M α

/-- Embeds the interpreter `send` built by `do(M)` in `do.py`:
a yielded container value `m` is chained with `m.flatmap(send)`;
`StopIteration` terminates the run with `e.value`; the `ReturnMonadic`
signal is caught and converted to `M.unit(e.value)`, so it never escapes
to the caller (the interpreter is a total function into `M α`). -/
def runDo (ops : MonadOps M) : DoProg M α → M α
  | DoProg.yieldStep m k => ops.flatmap m (fun x => runDo ops (k x))
  | DoProg.stopStep r => r
  | DoProg.mretStep v => ops.unit v

/-- The run of a do-block program reaches a sub-program: either the program
is that sub-program, or its first step yields a container value that the
container unwraps successfully (relation `succ`) and the continuation,
resumed with the unwrapped value, reaches the sub-program. -/
inductive Reaches {M : Type → Type} {α : Type} (succ : M α → α → Prop) :
    DoProg M α → DoProg M α → Prop where
  | refl (p : DoProg M α) : Reaches succ p p
  | step (m : M α) (x : α) (k : α → DoProg M α) (q : DoProg M α) :
      succ m x → Reaches succ (k x) q → Reaches succ (DoProg.yieldStep m k) q

/-- Successful unwrap for the Optional container: `Some x` resumes with `x`. -/
def succMaybe : Maybe α → α → Prop := fun m x => m = Maybe.Some x

/-- Successful unwrap for the Either container: `Right x` resumes with `x`. -/
def succEither {L R : Type} : Either L R → R → Prop := fun e x => e = Either.Right x

/-! ## Depth and fuel-bounded `append` (for the termination claim) -/

mutual
/-- Nesting depth of a value: an atom has depth 0, a dict value is one
deeper than its entries. -/
def vDepth : Val K A → Nat
  | Val.atom _ => 0
  | Val.vdict l => 1 + eDepth l
/-- Nesting depth of a dict's entry list: the maximum depth of its values. -/
def eDepth : List (K × Val K A) → Nat
  | [] => 0
  | (_, v) :: t => max (vDepth v) (eDepth t)
end

mutual
/-- Fuel-bounded variant of `append`: one unit of fuel is consumed per
level of recursive merging, and `none` is returned if the fuel runs out. -/
def appendF : Nat → List (K × Val K A) → List (K × Val K A) → Option (List (K × Val K A))
  | 0, _, _ => none
  | fuel + 1, d1, d2 =>
    (appendPairsF fuel d1 d2).map (fun ap => dictOfPairs (d1 ++ d2 ++ dictOfPairs ap))
termination_by fuel d1 d2 => (fuel, 0)
/-- Fuel-bounded variant of `appendV`. -/
def appendVF : Nat → Val K A → Val K A → Option (Val K A)
  | fuel, Val.vdict l1, Val.vdict l2 => (appendF fuel l1 l2).map Val.vdict
  | _, v, _ => some v
termination_by fuel v w => (fuel, 1)
/-- Fuel-bounded variant of `appendPairs`. -/
def appendPairsF : Nat → List (K × Val K A) → List (K × Val K A) → Option (List (K × Val K A))
  | _, [], _ => some []
  | fuel, (k, v) :: t, d2 =>
    match aget k d2 with
    | some w =>
        if isDict v && isDict w then
          match appendVF fuel v w, appendPairsF fuel t d2 with
          | some m, some r => some ((k, m) :: r)
          | _, _ => none
        else appendPairsF fuel t d2
    | none => appendPairsF fuel t d2
termination_by fuel l d2 => (fuel, 2 + l.length)
end

/-! ## Proof-layer helper definitions -/

/-- First-defined choice on options: the first operand if it is `some`,
the second otherwise. -/
def oor (o fallback : Option A) : Option A :=
  match o with
  | some w => some w
  | none => fallback

/-- Value of the last entry of `l` with key `k`, if any.  Building a CPython
dict from a pair sequence keeps, for every key, the value of the key's last
occurrence, so this is the lookup function of `dictOfPairs l`. -/
def lookupLast (k : K) : List (K × A) → Option A
  | [] => none
  | (k', v) :: t => oor (lookupLast k t) (if k' = k then some v else none)

/-! ## Lemmas about the dict primitives -/

theorem oor_none (o : Option A) : oor none o = o := rfl

theorem oor_some (w : A) (o : Option A) : oor (some w) o = some w := rfl

theorem keys_nil : keys ([] : List (K × A)) = [] := rfl

theorem keys_cons (k : K) (v : A) (t : List (K × A)) :
    keys ((k, v) :: t) = k :: keys t := rfl

theorem keys_append (l1 l2 : List (K × A)) :
    keys (l1 ++ l2) = keys l1 ++ keys l2 := by
  simp [keys]

theorem aget_eq_none_iff (k : K) (d : List (K × A)) :
    aget k d = none ↔ k ∉ keys d := by
  induction d with
  | nil => simp [aget, keys_nil]
  | cons p t ih =>
    obtain ⟨k', v⟩ := p
    by_cases h : k' = k
    · subst h
      simp [aget, keys_cons]
    · simp only [aget, if_neg h, keys_cons, List.mem_cons, ih]
      constructor
      · intro hn
        push_neg
        exact ⟨fun he => h he.symm, hn⟩
      · intro hn
        push_neg at hn
        exact hn.2

theorem aget_mem {k : K} {d : List (K × A)} {v : A} (h : aget k d = some v) :
    (k, v) ∈ d := by
  induction d with
  | nil => simp [aget] at h
  | cons p t ih =>
    obtain ⟨k', v'⟩ := p
    by_cases hk : k' = k
    · subst hk
      simp [aget] at h
      simp [h]
    · simp [aget, hk] at h
      exact List.mem_cons_of_mem _ (ih h)

theorem aget_dictInsert (k k' : K) (v' : A) (d : List (K × A)) :
    aget k (dictInsert k' v' d) = if k' = k then some v' else aget k d := by
  induction d with
  | nil => simp [dictInsert, aget]
  | cons p t ih =>
    obtain ⟨k₀, v₀⟩ := p
    by_cases h₀ : k₀ = k'
    · subst h₀
      by_cases hk : k₀ = k
      · subst hk
        simp [dictInsert, aget]
      · simp [dictInsert, aget, hk]
    · by_cases hk : k₀ = k
      · subst hk
        have hne : ¬ k' = k₀ := fun h => h₀ h.symm
        simp [dictInsert, h₀, aget, hne]
      · simp [dictInsert, h₀, aget, hk, ih]

theorem lookupLast_append (k : K) (l1 l2 : List (K × A)) :
    lookupLast k (l1 ++ l2) = oor (lookupLast k l2) (lookupLast k l1) := by
  induction l1 with
  | nil => cases h : lookupLast k l2 <;> simp [lookupLast, oor, h]
  | cons p t ih =>
    obtain ⟨k', v⟩ := p
    simp only [List.cons_append, lookupLast, List.append_eq]
    rw [ih]
    cases h : lookupLast k l2 <;> cases h' : lookupLast k t <;> simp [oor, h, h']

theorem aget_foldl_dictInsert (k : K) (l : List (K × A)) :
    ∀ acc, aget k (l.foldl (fun a p => dictInsert p.1 p.2 a) acc)
      = oor (lookupLast k l) (aget k acc) := by
  induction l with
  | nil => intro acc; simp [lookupLast, oor]
  | cons p t ih =>
    intro acc
    obtain ⟨k', v⟩ := p
    simp only [List.foldl_cons, lookupLast]
    rw [ih, aget_dictInsert]
    cases h : lookupLast k t <;> by_cases he : k' = k <;> simp [oor, h, he]

theorem aget_dictOfPairs (k : K) (l : List (K × A)) :
    aget k (dictOfPairs l) = lookupLast k l := by
  rw [dictOfPairs, aget_foldl_dictInsert]
  cases h : lookupLast k l <;> simp [oor, aget]

theorem lookupLast_eq_none_iff (k : K) (l : List (K × A)) :
    lookupLast k l = none ↔ k ∉ keys l := by
  induction l with
  | nil => simp [lookupLast, keys_nil]
  | cons p t ih =>
    obtain ⟨k', v⟩ := p
    simp only [lookupLast, keys_cons, List.mem_cons]
    cases h : lookupLast k t with
    | some w =>
      have hk : k ∈ keys t := by
        by_contra hk
        rw [← ih] at hk
        simp [hk] at h
      simp [oor, hk]
    | none =>
      have hk : k ∉ keys t := ih.mp h
      by_cases he : k' = k
      · simp [oor, he]
      · have hne : ¬ k = k' := fun hh => he hh.symm
        simp [oor, he, hk, hne]

theorem lookupLast_eq_aget {l : List (K × A)} (h : (keys l).Nodup) (k : K) :
    lookupLast k l = aget k l := by
  induction l with
  | nil => rfl
  | cons p t ih =>
    obtain ⟨k', v⟩ := p
    simp only [keys_cons, List.nodup_cons] at h
    obtain ⟨hk', ht⟩ := h
    simp only [lookupLast, aget]
    cases hll : lookupLast k t with
    | some w =>
      have hmem : k ∈ keys t := by
        by_contra hk
        rw [← lookupLast_eq_none_iff] at hk
        simp [hk] at hll
      have hne : ¬ k' = k := fun he => hk' (he ▸ hmem)
      simp [oor, hne, ← ih ht, hll]
    | none =>
      by_cases he : k' = k
      · simp [oor, he]
      · simp [oor, he, ← ih ht, hll]

theorem dictInsert_of_not_mem {k : K} {d : List (K × A)} (h : k ∉ keys d) (v : A) :
    dictInsert k v d = d ++ [(k, v)] := by
  induction d with
  | nil => rfl
  | cons p t ih =>
    obtain ⟨k', v'⟩ := p
    simp only [keys_cons, List.mem_cons] at h
    push_neg at h
    obtain ⟨h1, h2⟩ := h
    have hne : ¬ k' = k := fun he => h1 he.symm
    simp [dictInsert, hne, ih h2]

theorem mem_keys_dictInsert (j k : K) (v : A) (d : List (K × A)) :
    j ∈ keys (dictInsert k v d) ↔ j = k ∨ j ∈ keys d := by
  induction d with
  | nil => simp [dictInsert, keys_cons, keys_nil]
  | cons p t ih =>
    obtain ⟨k', v'⟩ := p
    by_cases h : k' = k
    · subst h
      simp [dictInsert, keys_cons]
    · simp only [dictInsert, if_neg h, keys_cons, List.mem_cons, ih]
      tauto

theorem nodup_keys_dictInsert (k : K) (v : A) {d : List (K × A)}
    (h : (keys d).Nodup) : (keys (dictInsert k v d)).Nodup := by
  induction d with
  | nil => simp [dictInsert, keys_cons, keys_nil]
  | cons p t ih =>
    obtain ⟨k', v'⟩ := p
    simp only [keys_cons, List.nodup_cons] at h
    obtain ⟨h1, h2⟩ := h
    by_cases he : k' = k
    · subst he
      have hins : dictInsert k' v ((k', v') :: t) = (k', v) :: t := by
        simp [dictInsert]
      rw [hins]
      simp only [keys_cons, List.nodup_cons]
      exact ⟨h1, h2⟩
    · simp only [dictInsert, if_neg he, keys_cons, List.nodup_cons]
      refine ⟨?_, ih h2⟩
      intro hmem
      rcases (mem_keys_dictInsert k' k v t).mp hmem with h' | h'
      · exact he h'
      · exact h1 h'

theorem nodup_keys_dictOfPairs (l : List (K × A)) :
    (keys (dictOfPairs l)).Nodup := by
  have main : ∀ acc : List (K × A), (keys acc).Nodup →
      (keys (l.foldl (fun a p => dictInsert p.1 p.2 a) acc)).Nodup := by
    induction l with
    | nil => intro acc h; simpa using h
    | cons p t ih =>
      intro acc h
      exact ih _ (nodup_keys_dictInsert p.1 p.2 h)
  exact main [] (by simp [keys_nil])

theorem dictOfPairs_eq_self {l : List (K × A)} (h : (keys l).Nodup) :
    dictOfPairs l = l := by
  have main : ∀ l : List (K × A), (keys l).Nodup → ∀ acc : List (K × A),
      (∀ j ∈ keys l, j ∉ keys acc) →
      l.foldl (fun a p => dictInsert p.1 p.2 a) acc = acc ++ l := by
    intro l
    induction l with
    | nil => intro _ acc _; simp
    | cons p t ih =>
      intro hn acc hdisj
      obtain ⟨k, v⟩ := p
      simp only [keys_cons, List.nodup_cons] at hn
      obtain ⟨h1, h2⟩ := hn
      have hk : k ∉ keys acc := hdisj k (by simp [keys_cons])
      have hdisj' : ∀ j ∈ keys t, j ∉ keys (acc ++ [(k, v)]) := by
        intro j hj
        rw [keys_append]
        intro hmem
        rcases List.mem_append.mp hmem with hja | hjk
        · exact hdisj j (by simp [keys_cons, hj]) hja
        · have : j = k := by simpa [keys_cons, keys_nil] using hjk
          exact h1 (this ▸ hj)
      simp only [List.foldl_cons]
      rw [dictInsert_of_not_mem hk, ih h2 (acc ++ [(k, v)]) hdisj']
      simp
  have := main l h [] (by simp [keys_nil])
  simpa [dictOfPairs] using this

/-! ## Lemmas about the filtering combinators -/

theorem nodup_keys_filter (q : K × A → Bool) {d : List (K × A)}
    (h : (keys d).Nodup) : (keys (d.filter q)).Nodup := by
  have hsub : List.Sublist (keys (d.filter q)) (keys d) := by
    simp only [keys]
    exact (List.filter_sublist d).map Prod.fst
  exact List.Nodup.sublist hsub h

theorem filterWithKey_eq_filter (p : K → A → Bool) {d : List (K × A)}
    (h : (keys d).Nodup) :
    filterWithKey p d = d.filter (fun kv => p kv.1 kv.2) := by
  rw [filterWithKey]
  exact dictOfPairs_eq_self (nodup_keys_filter _ h)

theorem aget_filter_key (q : K → Bool) (d : List (K × A)) (k : K) :
    aget k (d.filter (fun kv => q kv.1)) = if q k then aget k d else none := by
  induction d with
  | nil => simp [aget]
  | cons p t ih =>
    obtain ⟨k₀, v₀⟩ := p
    by_cases hq : q k₀
    · by_cases hk : k₀ = k
      · subst hk
        simp [List.filter_cons, hq, aget]
      · simp [List.filter_cons, hq, aget, hk, ih]
    · by_cases hk : k₀ = k
      · subst hk
        simp [List.filter_cons, hq, aget, ih]
      · simp [List.filter_cons, hq, aget, hk, ih]

/-- Claim C8: `filterWithKey(p, d)` returns a mapping containing exactly the
entries of `d` for which `p(key, value)` holds (the input, a value in this
embedding, is untouched), and `filterByKey(ks, d)` equals `filterWithKey`
applied with the membership predicate of the key space `ks`. -/
theorem claim_C8_filter (p : K → A → Bool) (d : List (K × A))
    (h : (keys d).Nodup) :
    (∀ kv : K × A, kv ∈ filterWithKey p d ↔ kv ∈ d ∧ p kv.1 kv.2 = true)
    ∧ (∀ ks : List K, filterByKey ks d = filterWithKey (fun k _ => decide (k ∈ ks)) d) := by
  constructor
  · intro kv
    rw [filterWithKey_eq_filter p h, List.mem_filter]
  · intro ks
    rfl

/-- Witness for C8 at the doctest input `d = {'a': 1, 'b': 2}` with the
predicate `k == 'a'`, evaluated at the entry `('a', 1)` and the key space
`{'a'}`. -/
theorem claim_C8_filter_witness :
    (keys [(("a" : String), (1 : Nat)), ("b", 2)]).Nodup
    ∧ ((("a", 1) ∈ filterWithKey (fun k _ => decide (k = "a")) [(("a" : String), (1 : Nat)), ("b", 2)]
          ↔ ("a", 1) ∈ [(("a" : String), (1 : Nat)), ("b", 2)] ∧ decide (("a" : String) = "a") = true)
        ∧ filterByKey ["a"] [(("a" : String), (1 : Nat)), ("b", 2)]
            = filterWithKey (fun k _ => decide (k ∈ ["a"])) [(("a" : String), (1 : Nat)), ("b", 2)]) :=
  ⟨by decide,
    (claim_C8_filter (fun k _ => decide (k = "a")) [("a", 1), ("b", 2)] (by decide)).1 ("a", 1),
    (claim_C8_filter (fun k _ => decide (k = "a")) [("a", 1), ("b", 2)] (by decide)).2 ["a"]⟩

/-- Claim C9: `insert(key, value, d)` maps `key` to `value` (overwriting) and
agrees with `d` on every other key; `delete(key, d)` contains exactly the
entries of `d` whose key differs from `key`.  Both build a new mapping;
in this pure embedding the argument `d` is untouched by construction. -/
theorem claim_C9_delete_insert (key : K) (value : A) (d : List (K × A))
    (h : (keys d).Nodup) :
    (∀ k', aget k' (insert key value d) = if k' = key then some value else aget k' d)
    ∧ (∀ kv : K × A, kv ∈ delete key d ↔ kv ∈ d ∧ kv.1 ≠ key)
    ∧ (∀ k', aget k' (delete key d) = if k' = key then none else aget k' d) := by
  refine ⟨?_, ?_, ?_⟩
  · intro k'
    rw [insert, aget_dictOfPairs, lookupLast_append]
    by_cases hk : k' = key
    · subst hk
      simp [lookupLast, oor]
    · have hne : ¬ key = k' := fun he => hk he.symm
      rw [lookupLast_eq_aget h]
      simp [lookupLast, oor, hne, hk]
  · intro kv
    rw [delete, dictOfPairs_eq_self (nodup_keys_filter _ h), List.mem_filter]
    simp
  · intro k'
    rw [delete, dictOfPairs_eq_self (nodup_keys_filter _ h)]
    rw [show (fun kv : K × A => decide (kv.1 ≠ key)) = (fun kv : K × A => (fun j => decide (j ≠ key)) kv.1) from rfl]
    rw [aget_filter_key (fun j => decide (j ≠ key)) d k']
    by_cases hk : k' = key <;> simp [hk]

/-- Witness for C9 at the doctest input `d = {'a': 1, 'b': 2}`,
`key = 'a'`, `value = 7`, evaluated at the keys `'b'`/`'a'` and the entry
`('b', 2)`. -/
theorem claim_C9_delete_insert_witness :
    (keys [(("a" : String), (1 : Nat)), ("b", 2)]).Nodup
    ∧ (aget "b" (insert "a" 7 [(("a" : String), (1 : Nat)), ("b", 2)])
        = if "b" = "a" then some 7 else aget "b" [(("a" : String), (1 : Nat)), ("b", 2)])
    ∧ ((("b" : String), (2 : Nat)) ∈ delete "a" [(("a" : String), (1 : Nat)), ("b", 2)]
        ↔ (("b" : String), (2 : Nat)) ∈ [(("a" : String), (1 : Nat)), ("b", 2)]
            ∧ ("b" : String) ≠ "a")
    ∧ (aget "a" (delete "a" [(("a" : String), (1 : Nat)), ("b", 2)])
        = if "a" = "a" then none else aget "a" [(("a" : String), (1 : Nat)), ("b", 2)]) :=
  ⟨by decide,
    (claim_C9_delete_insert "a" 7 [("a", 1), ("b", 2)] (by decide)).1 "b",
    (claim_C9_delete_insert "a" 7 [("a", 1), ("b", 2)] (by decide)).2.1 ("b", 2),
    (claim_C9_delete_insert "a" 7 [("a", 1), ("b", 2)] (by decide)).2.2 "a"⟩

/-! ## Lemmas about `append` -/

theorem appendV_vdict (l1 l2 : List (K × Val K A)) :
    appendV (Val.vdict l1) (Val.vdict l2) = Val.vdict (append l1 l2) := rfl

theorem keys_appendPairs_sublist (d1 d2 : List (K × Val K A)) :
    List.Sublist (keys (appendPairs d1 d2)) (keys d1) := by
  induction d1 with
  | nil => simp [appendPairs, keys_nil]
  | cons p t ih =>
    obtain ⟨k, v⟩ := p
    rw [keys_cons]
    cases hw : aget k d2 with
    | some w =>
      by_cases hc : isDict v && isDict w
      · simp only [appendPairs, hw, hc, if_pos, keys_cons]
        exact List.Sublist.cons₂ k ih
      · simp only [appendPairs, hw, hc]
        simp only [Bool.false_eq_true, if_false]
        exact List.Sublist.cons k ih
    | none =>
      simp only [appendPairs, hw]
      exact List.Sublist.cons k ih

theorem aget_appendPairs {d1 : List (K × Val K A)} (d2 : List (K × Val K A))
    (h1 : (keys d1).Nodup) (k : K) :
    aget k (appendPairs d1 d2) =
      match aget k d1, aget k d2 with
      | some v, some w => if isDict v && isDict w then some (appendV v w) else none
      | _, _ => none := by
  induction d1 with
  | nil => cases hw : aget k d2 <;> simp [appendPairs, aget]
  | cons p t ih =>
    obtain ⟨k₀, v₀⟩ := p
    simp only [keys_cons, List.nodup_cons] at h1
    obtain ⟨hk₀, ht⟩ := h1
    by_cases hk : k₀ = k
    · subst hk
      have htail : aget k₀ (appendPairs t d2) = none := by
        rw [aget_eq_none_iff]
        intro hmem
        exact hk₀ ((keys_appendPairs_sublist t d2).subset hmem)
      cases hw : aget k₀ d2 with
      | some w =>
        by_cases hc : isDict v₀ && isDict w
        · simp [appendPairs, hw, hc, aget]
        · simp [appendPairs, hw, hc, aget, htail]
      | none =>
        simp [appendPairs, hw, aget, htail]
    · have step : aget k (appendPairs ((k₀, v₀) :: t) d2) = aget k (appendPairs t d2) := by
        cases hw : aget k₀ d2 with
        | some w =>
          by_cases hc : isDict v₀ && isDict w <;> simp [appendPairs, hw, hc, aget, hk]
        | none => simp [appendPairs, hw]
      rw [step, ih ht]
      simp [aget, hk]

/-- Claim C2: `append(d1, d2)` (the spec's `deepMerge`) maps every key whose
values in both operands are dicts to the recursive merge of those dicts,
carries every other key of either operand through with `d2` taking
precedence, and satisfies the three doctest examples. -/
theorem claim_C2_append :
    (∀ (K A : Type) [DecidableEq K] (d1 d2 : List (K × Val K A)),
        (keys d1).Nodup → (keys d2).Nodup → ∀ k,
        aget k (append d1 d2) =
          match aget k d1, aget k d2 with
          | some (Val.vdict l1), some (Val.vdict l2) => some (Val.vdict (append l1 l2))
          | _, some w => some w
          | some v, none => some v
          | none, none => none)
    ∧ append ([] : List (String × Val String Nat)) [("a", Val.atom 1)] = [("a", Val.atom 1)]
    ∧ append [(("a" : String), (Val.atom 1 : Val String Nat))] [("a", Val.atom 2)]
        = [("a", Val.atom 2)]
    ∧ append [(("a" : String), Val.vdict [("x", (Val.atom 1 : Val String Nat))])]
          [("a", Val.vdict [("y", Val.atom 2)])]
        = [("a", Val.vdict [("x", Val.atom 1), ("y", Val.atom 2)])] := by
  refine ⟨?_, rfl, rfl, rfl⟩
  intro K A instK d1 d2 h1 h2 k
  have hAP : (keys (appendPairs d1 d2)).Nodup :=
    List.Nodup.sublist (keys_appendPairs_sublist d1 d2) h1
  rw [append, aget_dictOfPairs, lookupLast_append, lookupLast_append]
  rw [dictOfPairs_eq_self hAP, lookupLast_eq_aget hAP, lookupLast_eq_aget h2,
    lookupLast_eq_aget h1, aget_appendPairs d2 h1 k]
  rcases hv : aget k d1 with _ | v <;> rcases hw : aget k d2 with _ | w
  · simp [oor]
  · cases w <;> simp [oor]
  · cases v <;> simp [oor]
  · cases v <;> cases w <;> simp [oor, isDict, appendV_vdict]

/-- Witness for C2 at the doctest input
`append({'a': {'x': 1}}, {'a': {'y': 2}})`, looked up at key `'a'`. -/
theorem claim_C2_append_witness :
    (keys [(("a" : String), Val.vdict [("x", (Val.atom 1 : Val String Nat))])]).Nodup
    ∧ (keys [(("a" : String), Val.vdict [("y", (Val.atom 2 : Val String Nat))])]).Nodup
    ∧ aget "a"
        (append [(("a" : String), Val.vdict [("x", (Val.atom 1 : Val String Nat))])]
          [("a", Val.vdict [("y", Val.atom 2)])]) =
      match aget "a" [(("a" : String), Val.vdict [("x", (Val.atom 1 : Val String Nat))])],
          aget "a" [(("a" : String), Val.vdict [("y", (Val.atom 2 : Val String Nat))])] with
      | some (Val.vdict l1), some (Val.vdict l2) => some (Val.vdict (append l1 l2))
      | _, some w => some w
      | some v, none => some v
      | none, none => none :=
  ⟨by simp [keys_cons, keys_nil], by simp [keys_cons, keys_nil],
    claim_C2_append.1 String Nat _ _
      (by simp [keys_cons, keys_nil]) (by simp [keys_cons, keys_nil]) "a"⟩

/-! ## Lemmas about the fuel-bounded `append` -/

theorem appendPairsF_sound (fuel : Nat)
    (IH : ∀ l1 l2 : List (K × Val K A), eDepth l1 < fuel → appendF fuel l1 l2 = some (append l1 l2)) :
    ∀ d1 d2 : List (K × Val K A), eDepth d1 ≤ fuel →
      appendPairsF fuel d1 d2 = some (appendPairs d1 d2) := by
  intro d1
  induction d1 with
  | nil =>
    intro d2 _
    simp [appendPairsF, appendPairs]
  | cons p t ih =>
    intro d2 h
    obtain ⟨k, v⟩ := p
    have hd : eDepth t ≤ fuel := by
      have he : eDepth ((k, v) :: t) = max (vDepth v) (eDepth t) := by simp [eDepth]
      omega
    cases hw : aget k d2 with
    | none => simp [appendPairsF, appendPairs, hw, ih d2 hd]
    | some w =>
      by_cases hc : isDict v && isDict w
      · cases v with
        | atom a => simp [isDict] at hc
        | vdict l1 =>
          cases w with
          | atom a => simp [isDict] at hc
          | vdict l2 =>
            have hl1 : eDepth l1 < fuel := by
              have he : eDepth ((k, Val.vdict l1) :: t) = max (vDepth (Val.vdict l1)) (eDepth t) := by
                simp [eDepth]
              have hv : vDepth (Val.vdict l1) = 1 + eDepth l1 := by simp [vDepth]
              omega
            simp [appendPairsF, appendPairs, hw, hc, appendVF, IH l1 l2 hl1, ih d2 hd,
              appendV_vdict]
      · simp [appendPairsF, appendPairs, hw, hc, ih d2 hd]

/-- Claim C7: `append` (a total function in this embedding, so it terminates
on every finite tree-shaped input) is computed by its fuel-bounded variant
whenever the fuel exceeds the nesting depth of the first input: the
recursion depth of the merge is bounded by the nesting depth of the
inputs. -/
theorem claim_C7_append_fuel (fuel : Nat) (d1 d2 : List (K × Val K A))
    (h : eDepth d1 < fuel) : appendF fuel d1 d2 = some (append d1 d2) := by
  induction fuel generalizing d1 d2 with
  | zero => exact absurd h (Nat.not_lt_zero _)
  | succ fuel ihf =>
    have hP := appendPairsF_sound fuel ihf d1 d2 (by omega)
    simp [appendF, hP, append]

/-- Witness for C7 at the nested doctest input
`append({'a': {'x': 1}}, {'a': {'y': 2}})` with fuel 2. -/
theorem claim_C7_append_fuel_witness :
    eDepth [(("a" : String), Val.vdict [("x", (Val.atom 1 : Val String Nat))])] < 2
    ∧ appendF 2 [(("a" : String), Val.vdict [("x", (Val.atom 1 : Val String Nat))])]
        [("a", Val.vdict [("y", Val.atom 2)])]
      = some (append [(("a" : String), Val.vdict [("x", (Val.atom 1 : Val String Nat))])]
          [("a", Val.vdict [("y", Val.atom 2)])]) :=
  ⟨by decide, claim_C7_append_fuel 2 _ _ (by decide)⟩

/-! ## Lemmas about `unflatten` -/

theorem unflatten1_eq_singletonPath (parts : List PyStr) (v : Val PyStr A) :
    unflatten1 parts v = singletonPath parts v := by
  induction parts with
  | nil => rfl
  | cons h t ih =>
    cases t with
    | nil => rfl
    | cons h2 t2 => simp [unflatten1, singletonPath, ih]

/-- Claim C3: `unflatten(d, sep)` folds, over the entries of `d` in
iteration order and starting from the empty mapping, the `append`
(deepMerge) of the singleton nested mapping mirroring each entry's
separator-split key path, and satisfies the doctest examples (a key
without the separator splits into a single segment and so becomes a
top-level leaf). -/
theorem claim_C3_unflatten :
    (∀ (A : Type) (d : List (PyStr × Val PyStr A)) (sep : PyStr),
        unflatten d sep
          = d.foldl (fun acc p => append acc (singletonPath (pySplit sep p.1) p.2)) [])
    ∧ unflatten
        [(['a', '.', 'b'], (Val.atom 1 : Val PyStr Nat)),
          (['a', '.', 'c'], Val.atom 2), (['x'], Val.atom 3)] ['.']
        = [(['a'], Val.vdict [(['b'], Val.atom 1), (['c'], Val.atom 2)]),
            (['x'], Val.atom 3)]
    ∧ unflatten ([] : List (PyStr × Val PyStr Nat)) ['.'] = [] := by
  refine ⟨?_, rfl, rfl⟩
  intro A d sep
  have hfun :
      (fun (acc : List (PyStr × Val PyStr A)) (p : PyStr × Val PyStr A) =>
          append acc (unflatten1 (pySplit sep p.1) p.2))
        = fun acc p => append acc (singletonPath (pySplit sep p.1) p.2) := by
    funext acc p
    rw [unflatten1_eq_singletonPath]
  rw [unflatten, hfun]

/-! ## Lemmas about the do-block interpreter -/

theorem runDo_eq_of_reaches_maybe {α : Type} {p q : DoProg Maybe α}
    (h : Reaches succMaybe p q) : runDo maybeOps p = runDo maybeOps q := by
  induction h with
  | refl p => rfl
  | step m x k q hs hr ih =>
    have hm : m = Maybe.Some x := hs
    subst hm
    simpa [runDo, maybeOps, Maybe.flatmap] using ih

theorem runDo_eq_of_reaches_either {L R : Type} {p q : DoProg (Either L) R}
    (h : Reaches succEither p q) : runDo (eitherOps L) p = runDo (eitherOps L) q := by
  induction h with
  | refl p => rfl
  | step m x k q hs hr ih =>
    have hm : m = Either.Right x := hs
    subst hm
    simpa [runDo, eitherOps, Either.flatmap] using ih

/-- Claim C4: a do-block program whose run reaches the explicit early-return
signal `mreturn v` evaluates to the container's success constructor applied
to `v` (`Some v` for the Optional container, `Right v` for Either); the
internal signal is converted by the interpreter, which is a total function
into the container type, so it never escapes to the caller. -/
theorem claim_C4_do_mreturn :
    (∀ (α : Type) (p : DoProg Maybe α) (v : α),
        Reaches succMaybe p (DoProg.mretStep v) → runDo maybeOps p = Maybe.Some v)
    ∧ (∀ (L R : Type) (p : DoProg (Either L) R) (v : R),
        Reaches succEither p (DoProg.mretStep v) → runDo (eitherOps L) p = Either.Right v) := by
  constructor
  · intro α p v h
    exact runDo_eq_of_reaches_maybe h
  · intro L R p v h
    exact runDo_eq_of_reaches_either h

/-- Witness for C4: a program that yields one successful step and then
early-returns. -/
theorem claim_C4_do_mreturn_witness :
    runDo maybeOps (DoProg.yieldStep (Maybe.Some 1) (fun n => DoProg.mretStep (n + 1)))
        = Maybe.Some 2
    ∧ runDo (eitherOps String)
          (DoProg.yieldStep (Either.Right 1) (fun n => DoProg.mretStep (n + 1)))
        = Either.Right 2 :=
  ⟨claim_C4_do_mreturn.1 Nat _ 2 (Reaches.step _ 1 _ _ rfl (Reaches.refl _)),
    claim_C4_do_mreturn.2 String Nat _ 2 (Reaches.step _ 1 _ _ rfl (Reaches.refl _))⟩

/-- Claim C5: if a yielded step of a do-block program produces the
container's short-circuit state (`Nothing`/`Left`), the whole computation
evaluates to that state, and the continuation after the short-circuiting
yield is never consulted (the result is the same for any two
continuations). -/
theorem claim_C5_do_shortcircuit :
    (∀ (α : Type) (p : DoProg Maybe α) (kont : α → DoProg Maybe α),
        Reaches succMaybe p (DoProg.yieldStep Maybe.Nothing kont) →
        runDo maybeOps p = Maybe.Nothing)
    ∧ (∀ (L R : Type) (l : L) (p : DoProg (Either L) R) (kont : R → DoProg (Either L) R),
        Reaches succEither p (DoProg.yieldStep (Either.Left l) kont) →
        runDo (eitherOps L) p = Either.Left l)
    ∧ (∀ (α : Type) (k1 k2 : α → DoProg Maybe α),
        runDo maybeOps (DoProg.yieldStep Maybe.Nothing k1)
          = runDo maybeOps (DoProg.yieldStep Maybe.Nothing k2))
    ∧ (∀ (L R : Type) (l : L) (k1 k2 : R → DoProg (Either L) R),
        runDo (eitherOps L) (DoProg.yieldStep (Either.Left l) k1)
          = runDo (eitherOps L) (DoProg.yieldStep (Either.Left l) k2)) := by
  refine ⟨?_, ?_, ?_, ?_⟩
  · intro α p kont h
    exact runDo_eq_of_reaches_maybe h
  · intro L R l p kont h
    exact runDo_eq_of_reaches_either h
  · intro α k1 k2
    rfl
  · intro L R l k1 k2
    rfl

/-- Witness for C5: a program whose second yielded step is the
short-circuit state. -/
theorem claim_C5_do_shortcircuit_witness :
    runDo maybeOps
        (DoProg.yieldStep (Maybe.Some 1)
          (fun _ => DoProg.yieldStep Maybe.Nothing (fun _ => DoProg.mretStep 5)))
        = Maybe.Nothing
    ∧ runDo (eitherOps String)
          (DoProg.yieldStep (Either.Right 1)
            (fun _ => DoProg.yieldStep (Either.Left "boom") (fun _ => DoProg.mretStep 5)))
        = Either.Left "boom" :=
  ⟨claim_C5_do_shortcircuit.1 Nat _ (fun _ => DoProg.mretStep 5)
      (Reaches.step _ 1 _ _ rfl (Reaches.refl _)),
    (claim_C5_do_shortcircuit.2).1 String Nat "boom" _ (fun _ => DoProg.mretStep 5)
      (Reaches.step _ 1 _ _ rfl (Reaches.refl _))⟩

/-- Claim C6: a do-block program whose run completes without the explicit
early-return (the generator finishes, raising `StopIteration` with the
value of the program's final container expression) evaluates to that
value verbatim. -/
theorem claim_C6_do_completion :
    (∀ (α : Type) (p : DoProg Maybe α) (r : Maybe α),
        Reaches succMaybe p (DoProg.stopStep r) → runDo maybeOps p = r)
    ∧ (∀ (L R : Type) (p : DoProg (Either L) R) (r : Either L R),
        Reaches succEither p (DoProg.stopStep r) → runDo (eitherOps L) p = r) := by
  constructor
  · intro α p r h
    exact runDo_eq_of_reaches_maybe h
  · intro L R p r h
    exact runDo_eq_of_reaches_either h

/-- Witness for C6: a program that yields one successful step and then runs
to completion returning a container expression. -/
theorem claim_C6_do_completion_witness :
    runDo maybeOps
        (DoProg.yieldStep (Maybe.Some 1) (fun n => DoProg.stopStep (Maybe.Some (n + 1))))
        = Maybe.Some 2
    ∧ runDo (eitherOps String)
          (DoProg.yieldStep (Either.Right 1) (fun n => DoProg.stopStep (Either.Right (n + 1))))
        = Either.Right 2 :=
  ⟨claim_C6_do_completion.1 Nat _ (Maybe.Some 2) (Reaches.step _ 1 _ _ rfl (Reaches.refl _)),
    claim_C6_do_completion.2 String Nat _ (Either.Right 2)
      (Reaches.step _ 1 _ _ rfl (Reaches.refl _))⟩

/-! ## Lemmas about `lookup` and `getByKeys` -/

theorem isNothing_eq_true_iff (m : Maybe A) :
    m.isNothing = true ↔ m = Maybe.Nothing := by
  cases m <;> simp [Maybe.isNothing]

theorem lookup_eq_some_iff (k : K) (d : List (K × Option A)) (v : A) :
    lookup k d = Maybe.Some v ↔ aget k d = some (some v) := by
  rw [lookup, pyGet]
  cases h : aget k d with
  | none => simp [Maybe.of]
  | some ov => cases ov <;> simp [Maybe.of]

theorem lookup_isNothing_iff (k : K) (d : List (K × Option A)) :
    (lookup k d).isNothing = true ↔ (aget k d = none ∨ aget k d = some none) := by
  rw [lookup, pyGet]
  cases h : aget k d with
  | none => simp [Maybe.of, Maybe.isNothing]
  | some ov => cases ov <;> simp [Maybe.of, Maybe.isNothing]

theorem sequence_map_left (d : List (K × Option A)) (ks : List K) (k₀ : K)
    (h : ks.find? (fun j => (lookup j d).isNothing) = some k₀) :
    Either.sequence (ks.map (getByKeysItem d)) = Either.Left k₀ := by
  induction ks with
  | nil => simp at h
  | cons k t ih =>
    by_cases hk : (lookup k d).isNothing = true
    · rw [List.find?_cons_of_pos t hk] at h
      have hk0 : k = k₀ := by injection h
      subst hk0
      have hl : lookup k d = Maybe.Nothing := (isNothing_eq_true_iff _).mp hk
      simp [List.map_cons, getByKeysItem, hl, Maybe.maybe, Either.sequence]
    · rw [List.find?_cons_of_neg t hk] at h
      have hsome : ∃ v, lookup k d = Maybe.Some v := by
        cases hl : lookup k d with
        | Some v => exact ⟨v, rfl⟩
        | Nothing => simp [hl, Maybe.isNothing] at hk
      obtain ⟨v, hv⟩ := hsome
      simp [List.map_cons, getByKeysItem, hv, Maybe.maybe, Either.sequence, ih h, Either.map]

theorem sequence_map_right (d : List (K × Option A)) (ks : List K)
    (h : ∀ k ∈ ks, (lookup k d).isNothing = false) :
    ∃ pairs : List (K × A),
      Either.sequence (ks.map (getByKeysItem d)) = Either.Right pairs
        ∧ keys pairs = ks ∧ ∀ p ∈ pairs, lookup p.1 d = Maybe.Some p.2 := by
  induction ks with
  | nil => exact ⟨[], rfl, rfl, by simp⟩
  | cons k t ih =>
    have hk := h k (List.mem_cons_self k t)
    have hsome : ∃ v, lookup k d = Maybe.Some v := by
      cases hl : lookup k d with
      | Some v => exact ⟨v, rfl⟩
      | Nothing => simp [hl, Maybe.isNothing] at hk
    obtain ⟨v, hv⟩ := hsome
    obtain ⟨pairs, hseq, hkeys, hval⟩ := ih (fun j hj => h j (List.mem_cons_of_mem _ hj))
    refine ⟨(k, v) :: pairs, ?_, ?_, ?_⟩
    · simp [List.map_cons, getByKeysItem, hv, Maybe.maybe, Either.sequence, hseq, Either.map]
    · rw [keys_cons, hkeys]
    · intro p hp
      rcases List.mem_cons.mp hp with hp | hp
      · subst hp
        exact hv
      · exact hval p hp

theorem lookupLast_of_const {l : List (K × A)} {k : K} {v : A}
    (hmem : k ∈ keys l) (hconst : ∀ p ∈ l, p.1 = k → p.2 = v) :
    lookupLast k l = some v := by
  induction l with
  | nil => simp [keys_nil] at hmem
  | cons p t ih =>
    obtain ⟨k', w⟩ := p
    rw [lookupLast]
    cases hll : lookupLast k t with
    | some w' =>
      have hkt : k ∈ keys t := by
        by_contra hc
        rw [← lookupLast_eq_none_iff] at hc
        simp [hc] at hll
      have hih := ih hkt (fun p hp hpk => hconst p (List.mem_cons_of_mem _ hp) hpk)
      rw [hll] at hih
      have : w' = v := by injection hih
      simp [oor, this]
    | none =>
      have hkt : k ∉ keys t := (lookupLast_eq_none_iff _ _).mp hll
      have hkk : k = k' ∨ k ∈ keys t := by simpa [keys_cons] using hmem
      have hk' : k' = k := by
        rcases hkk with h | h
        · exact h.symm
        · exact absurd h hkt
      have hw : w = v := hconst (k', w) (List.mem_cons_self _ _) hk'
      simp [oor, hk', hw]

theorem find?_ext {p q : K → Bool} :
    ∀ {l : List K}, (∀ a ∈ l, p a = q a) → l.find? p = l.find? q := by
  intro l
  induction l with
  | nil => intro _; rfl
  | cons a t ih =>
    intro h
    have ha := h a (List.mem_cons_self a t)
    by_cases hp : p a = true
    · rw [List.find?_cons_of_pos t hp, List.find?_cons_of_pos t (by rw [← ha]; exact hp)]
    · rw [List.find?_cons_of_neg t hp, List.find?_cons_of_neg t (by rw [← ha]; exact hp),
        ih (fun b hb => h b (List.mem_cons_of_mem _ hb))]

theorem isNothing_lookup_of_values_some {d : List (K × Option A)}
    (hv : ∀ p ∈ d, p.2.isSome) (k : K) :
    (lookup k d).isNothing = decide (k ∉ keys d) := by
  by_cases hm : k ∈ keys d
  · cases hag : aget k d with
    | none => exact absurd ((aget_eq_none_iff k d).mp hag) (by simpa using hm)
    | some ov =>
      have hov : ov.isSome := hv (k, ov) (aget_mem hag)
      cases ov with
      | none => simp at hov
      | some a =>
        have hl : lookup k d = Maybe.Some a := (lookup_eq_some_iff k d a).mpr hag
        simp [hl, Maybe.isNothing, hm]
  · have hag : aget k d = none := (aget_eq_none_iff k d).mpr hm
    have hl : (lookup k d).isNothing = true := (lookup_isNothing_iff k d).mpr (Or.inl hag)
    simp [hl, hm]

/-- Claim C1: for a key set `ks` (given in its iteration order) and a
mapping `d` none of whose stored values is the absent sentinel,
`getByKeys(ks, d)` returns `Left` of the first key of `ks` missing from
`d` if any, and otherwise `Right` of the sub-mapping of `d` restricted to
exactly the keys of `ks`. -/
theorem claim_C1_getByKeys :
    ∀ (K A : Type) [DecidableEq K] (ks : List K) (d : List (K × Option A)),
      (∀ p ∈ d, p.2.isSome) →
      ((∀ k₀, ks.find? (fun k => decide (k ∉ keys d)) = some k₀ →
          getByKeys ks d = Either.Left k₀)
        ∧ ((∀ k ∈ ks, k ∈ keys d) →
            ∃ r, getByKeys ks d = Either.Right r
              ∧ ∀ k, aget k r = if k ∈ ks then Option.join (aget k d) else none)) := by
  intro K A instK ks d hv
  constructor
  · intro k₀ hfind
    have hfind' : ks.find? (fun j => (lookup j d).isNothing) = some k₀ := by
      rw [find?_ext (fun a _ => isNothing_lookup_of_values_some hv a)]
      exact hfind
    rw [getByKeys, sequence_map_left d ks k₀ hfind']
    rfl
  · intro hall
    have h' : ∀ k ∈ ks, (lookup k d).isNothing = false := by
      intro k hk
      rw [isNothing_lookup_of_values_some hv k]
      simp [hall k hk]
    obtain ⟨pairs, hseq, hkeys, hval⟩ := sequence_map_right d ks h'
    refine ⟨dictOfPairs pairs, ?_, ?_⟩
    · rw [getByKeys, hseq]
      rfl
    · intro k
      rw [aget_dictOfPairs]
      by_cases hk : k ∈ ks
      · have hkp : k ∈ keys pairs := hkeys ▸ hk
        have hsome : ∃ v, lookup k d = Maybe.Some v := by
          have hne := h' k hk
          cases hl : lookup k d with
          | Some v => exact ⟨v, rfl⟩
          | Nothing => rw [hl] at hne; simp [Maybe.isNothing] at hne
        obtain ⟨v, hvk⟩ := hsome
        have hconst : ∀ p ∈ pairs, p.1 = k → p.2 = v := by
          intro p hp hpk
          have hlp := hval p hp
          rw [hpk, hvk] at hlp
          have : v = p.2 := by injection hlp
          exact this.symm
        rw [lookupLast_of_const hkp hconst]
        have hag : aget k d = some (some v) := (lookup_eq_some_iff k d v).mp hvk
        simp [hk, hag]
      · have hnp : k ∉ keys pairs := hkeys ▸ hk
        rw [(lookupLast_eq_none_iff k pairs).mpr hnp]
        simp [hk]

/-- Witness for C1 at the doctest input
`getByKeys({'a', 'c'}, {'a': 1, 'b': 2}) == Left 'c'`. -/
theorem claim_C1_getByKeys_witness :
    getByKeys ["a", "c"] [(("a" : String), some (1 : Nat)), ("b", some 2)]
      = Either.Left "c" :=
  (claim_C1_getByKeys String Nat ["a", "c"] [("a", some 1), ("b", some 2)]
      (by decide)).1 "c" (by decide)

/-- Counterexample for C10 as stated: in `d = {'a': None}` the key `'a'` is
present and mapped to the sentinel, and `'a'` is a member of the key set
`{'c', 'a'}` (iterated as `['c', 'a']`), yet `getByKeys` returns
`Left 'c'` — the first failing key in iteration order — not `Left 'a'`. -/
theorem claim_C10_counterexample :
    aget "a" [(("a" : String), (none : Option Nat))] = some none
    ∧ ("a" : String) ∈ (["c", "a"] : List String)
    ∧ getByKeys ["c", "a"] [(("a" : String), (none : Option Nat))] = Either.Left "c"
    ∧ getByKeys ["c", "a"] [(("a" : String), (none : Option Nat))] ≠ Either.Left "a" := by
  refine ⟨rfl, by decide, rfl, ?_⟩
  decide

/-- Claim C10 (amended): if `k` is present in `d` but mapped to the absent
sentinel `None`, then `lookup(k, d)` returns `Nothing`, and
`getByKeys(ks, d)` returns `Left(k)` whenever `k` is the first key of `ks`
in iteration order whose lookup fails — so a key stored with value `None`
is indistinguishable from a missing key at this interface. -/
theorem claim_C10_none_indistinguishable :
    ∀ (K A : Type) [DecidableEq K] (k : K) (d : List (K × Option A)),
      aget k d = some none →
      (lookup k d = Maybe.Nothing
        ∧ ∀ ks : List K, ks.find? (fun j => (lookup j d).isNothing) = some k →
            getByKeys ks d = Either.Left k) := by
  intro K A instK k d h
  constructor
  · exact (isNothing_eq_true_iff _).mp ((lookup_isNothing_iff k d).mpr (Or.inr h))
  · intro ks hfind
    rw [getByKeys, sequence_map_left d ks k hfind]
    rfl

/-- Witness for the amended C10 at `d = {'a': None}`, `ks = {'a'}`. -/
theorem claim_C10_none_indistinguishable_witness :
    lookup "a" [(("a" : String), (none : Option Nat))] = Maybe.Nothing
    ∧ getByKeys ["a"] [(("a" : String), (none : Option Nat))] = Either.Left "a" :=
  ⟨(claim_C10_none_indistinguishable String Nat "a" [("a", none)] rfl).1,
    (claim_C10_none_indistinguishable String Nat "a" [("a", none)] rfl).2 ["a"] (by decide)⟩

end nwastdlib
